import Mathlib

/-
Verification of the CodeWiki dependency-analyzer core: a shallow embedding of
the call-graph orchestrator (call_graph_analyzer.py), the component builder
(ast_parser.py), the leaf-node filter (dependency_graphs_builder.py) and the
repository file-tree walk (repo_analyzer.py), together with proofs of the
specified invariants.

Python dicts are modelled as insertion-ordered association lists: updating an
existing key keeps its position, inserting a new key appends.  Python sets of
strings are modelled as duplicate-free lists.  Per-language analyzers parse
source text with tree-sitter and cannot be embedded; their per-file results
(a node list and a relationship list) are treated as inputs, and a raised
exception during the analysis of one file is modelled as an error value.
-/

namespace CodeWiki

/-- Modelled from the spec: the Node record of models/core.py (the file is not
part of the analyzed sources).  Section 3 of the spec lists the attributes;
depends_on starts empty and is populated only by the resolution pass. -/
structure Node where
  id : String
  name : String
  component_type : String
  file_path : String
  relative_path : String
  source_code : String
  start_line : Nat
  end_line : Nat
  has_docstring : Bool
  docstring : String
  parameters : Option (List String)
  node_type : String
  base_classes : Option (List String)
  class_name : Option String
  display_name : String
  component_id : String
  depends_on : List String := []
deriving Repr, DecidableEq

/-- Modelled from the spec: the CallRelationship record of models/core.py (the
file is not part of the analyzed sources). -/
structure CallRelationship where
  caller : String
  callee : String
  call_line : Nat
  is_resolved : Bool
deriving Repr, DecidableEq

/-- Insertion-ordered dictionary update: an existing key keeps its position
and gets the new value, a new key is appended (CPython dict semantics). -/
def dictInsert {α : Type} (d : List (String × α)) (k : String) (v : α) :
    List (String × α) :=
  if d.any (fun p => p.1 == k) then
    d.map (fun p => if p.1 == k then (k, v) else p)
  else d ++ [(k, v)]

/-- Dictionary lookup (dict.get). -/
def dictLookup {α : Type} (d : List (String × α)) (k : String) : Option α :=
  match d.find? (fun p => p.1 == k) with
  | some p => some p.2
  | none => none

/-- Dictionary membership (the Python "in" operator on a dict). -/
def dictContains {α : Type} (d : List (String × α)) (k : String) : Bool :=
  d.any (fun p => p.1 == k)

/-- Strip a pattern from the front of a character list, when it is a prefix. -/
def stripPrefix? : List Char → List Char → Option (List Char)
  | [], l => some l
  | _ :: _, [] => none
  | s :: ss, c :: cs => if c = s then stripPrefix? ss cs else none

/-- Leftmost non-overlapping split of a character list at a separator, with a
fuel argument (one unit per consumed character) for structural recursion. -/
def splitCharsAux (sep : List Char) : Nat → List Char → List (List Char)
  | _, [] => [[]]
  | 0, _ => [[]]
  | Nat.succ n, c :: cs =>
    match stripPrefix? sep (c :: cs) with
    | some rest => [] :: splitCharsAux sep n rest
    | none =>
      match splitCharsAux sep n cs with
      | [] => [[c]]
      | h :: t => (c :: h) :: t

/-- Python str.split with an explicit separator: leftmost non-overlapping
occurrences delimit the pieces; splitting never yields an empty list. -/
def pySplit (s sep : String) : List String :=
  if sep = "" then [s]
  else (splitCharsAux sep.toList s.toList.length s.toList).map String.mk

/-- Python str.strip with no argument: drop whitespace on both ends. -/
def pyStrip (s : String) : String :=
  String.mk
    (((s.toList.dropWhile (fun c => c.isWhitespace)).reverse.dropWhile
      (fun c => c.isWhitespace)).reverse)

/-- Python str.lower restricted to the character-wise mapping. -/
def pyLower (s : String) : String :=
  String.mk (s.toList.map Char.toLower)

/-- Python str.startswith. -/
def pyStartsWith (s pre : String) : Bool :=
  pre.toList.isPrefixOf s.toList

/-- Python str.endswith. -/
def pyEndsWith (s suf : String) : Bool :=
  suf.toList.isSuffixOf s.toList

/-- Python s.split(".")[-1]: the text after the last dot (s itself when s has
no dot). -/
def lastSuffix (s : String) : String :=
  (pySplit s ".").getLastD ""

/-- Python substring containment (the "in" operator on strings). -/
def strContains (s pat : String) : Bool :=
  (pySplit s pat).length > 1 || pat == ""

/-- Python set.add on a set of strings modelled as a duplicate-free list. -/
def setAdd (s : List String) (x : String) : List String :=
  if s.contains x then s else s ++ [x]

/-- The result one per-language analyzer returns for one file: the file path
the orchestrator passed to it, the extracted declaration nodes, and the raw
call relationships. -/
structure FileAnalysis where
  path : String
  nodes : List Node
  rels : List CallRelationship
deriving Repr, DecidableEq

/-- Registration of one file's nodes into the global functions registry
(call_graph_analyzer.py, the per-language wrappers): the key is func.id when
non-empty, otherwise the legacy "file_path:name" key. -/
def registerNodes (functions : List (String × Node)) (path : String)
    (nodes : List Node) : List (String × Node) :=
  nodes.foldl
    (fun d f => dictInsert d (if f.id != "" then f.id else path ++ ":" ++ f.name) f)
    functions

/-- The merge phase of CallGraphAnalyzer.analyze_code_files: each file either
contributes its analyzer result or, when the analyzer raised (Except.error,
caught by _analyze_code_file), contributes nothing.  Nodes are unioned into
the registry, relationship lists are concatenated. -/
def mergeFiles (files : List (Except String FileAnalysis)) :
    List (String × Node) × List CallRelationship :=
  files.foldl
    (fun acc f =>
      match f with
      | Except.error _ => acc
      | Except.ok fa => (registerNodes acc.1 fa.path fa.nodes, acc.2 ++ fa.rels))
    ([], [])

/-- One iteration of the func_lookup construction in
_resolve_call_relationships: insert the full id, the bare name, the
component_id, and (only when absent) the text after the last dot of the
component_id. -/
def insertFuncKeys (lk : List (String × String)) (fid : String) (f : Node) :
    List (String × String) :=
  let lk1 := dictInsert lk fid fid
  let lk2 := dictInsert lk1 f.name fid
  if f.component_id != "" then
    let lk3 := dictInsert lk2 f.component_id fid
    let m := lastSuffix f.component_id
    if dictContains lk3 m then lk3 else dictInsert lk3 m fid
  else lk2

/-- The multi-key lookup table of _resolve_call_relationships, built by
iterating the functions registry in insertion order. -/
def buildFuncLookup (functions : List (String × Node)) : List (String × String) :=
  functions.foldl (fun lk p => insertFuncKeys lk p.1 p.2) []

/-- Resolution of a single relationship (_resolve_call_relationships loop
body): exact lookup of the callee; otherwise, when the callee contains a dot,
the (necessarily dead) repeated exact lookup and then the lookup of the text
after the last dot.  A hit rewrites the callee and sets is_resolved; a miss
leaves the relationship unchanged, including a pre-set is_resolved flag. -/
def resolveRel (lk : List (String × String)) (r : CallRelationship) :
    CallRelationship :=
  match dictLookup lk r.callee with
  | some fid => { r with callee := fid, is_resolved := true }
  | none =>
    if strContains r.callee "." then
      match dictLookup lk r.callee with
      | some fid => { r with callee := fid, is_resolved := true }
      | none =>
        match dictLookup lk (lastSuffix r.callee) with
        | some fid => { r with callee := fid, is_resolved := true }
        | none => r
    else r

/-- CallGraphAnalyzer._resolve_call_relationships on the whole relationship
list. -/
def resolveCallRelationships (functions : List (String × Node))
    (rels : List CallRelationship) : List CallRelationship :=
  rels.map (resolveRel (buildFuncLookup functions))

/-- CallGraphAnalyzer._deduplicate_relationships: keep the first occurrence of
every (caller, callee) pair, preserving order (seen is the Python set). -/
def dedupRels (seen : List (String × String)) :
    List CallRelationship → List CallRelationship
  | [] => []
  | r :: rest =>
    if seen.contains (r.caller, r.callee) then dedupRels seen rest
    else r :: dedupRels ((r.caller, r.callee) :: seen) rest

/-- The mutable state of a CallGraphAnalyzer instance. -/
structure AnalyzerState where
  functions : List (String × Node)
  call_relationships : List CallRelationship
deriving Repr, DecidableEq

/-- The resolution pass as a state transformer: it rewrites the relationship
list and leaves the functions registry untouched. -/
def resolveStep (s : AnalyzerState) : AnalyzerState :=
  { functions := s.functions,
    call_relationships :=
      resolveCallRelationships s.functions s.call_relationships }

/-- The deduplication pass as a state transformer. -/
def dedupStep (s : AnalyzerState) : AnalyzerState :=
  { functions := s.functions,
    call_relationships := dedupRels [] s.call_relationships }

/-- CallGraphAnalyzer.analyze_code_files: merge all per-file results, resolve,
deduplicate; the result carries the functions registry and the final
relationship list. -/
def analyzeCodeFiles (files : List (Except String FileAnalysis)) :
    List (String × Node) × List CallRelationship :=
  let m := mergeFiles files
  let s := dedupStep (resolveStep ⟨m.1, m.2⟩)
  (s.functions, s.call_relationships)

/-- The legacy identifier "file_path:name" computed for every component in
DependencyParser._build_components_from_analysis. -/
def legacyId (f : Node) : String :=
  f.file_path ++ ":" ++ f.name

/-- The Node reconstructed by _build_components_from_analysis from one
serialized function record: every field is copied from the record, the
component_id is set to the id, and depends_on starts empty (the Node
constructor is called without a depends_on argument). -/
def freshComponent (f : Node) : Node :=
  { f with component_id := f.id, depends_on := [] }

/-- The body of the first loop of _build_components_from_analysis for one
function record: when the id is non-empty, register the rebuilt Node in the
components dictionary, map the component id to itself, and map the legacy
"file_path:name" id to the component id when it differs. -/
def registerComponent (acc : List (String × Node) × List (String × String))
    (f : Node) : List (String × Node) × List (String × String) :=
  if f.id == "" then acc
  else
    let comps := dictInsert acc.1 f.id (freshComponent f)
    let m1 := dictInsert acc.2 f.id f.id
    let m2 :=
      if legacyId f != "" && legacyId f != f.id then
        dictInsert m1 (legacyId f) f.id
      else m1
    (comps, m2)

/-- The first loop of _build_components_from_analysis over all function
records. -/
def buildRegistry (functions : List Node) :
    List (String × Node) × List (String × String) :=
  functions.foldl registerComponent ([], [])

/-- The fallback scan of the second loop of _build_components_from_analysis:
the first component (in dictionary order) whose name equals the callee
string. -/
def fallbackByName (comps : List (String × Node)) (callee : String) :
    Option String :=
  match comps.find? (fun p => p.2.name == callee) with
  | some p => some p.1
  | none => none

/-- Resolution of the callee side in the second loop: the id mapping first;
when it yields nothing (None or an empty string, both falsy in Python), the
name-matching fallback scan. -/
def calleeLookup (comps : List (String × Node))
    (mapping : List (String × String)) (callee : String) : Option String :=
  match dictLookup mapping callee with
  | some k => if k == "" then fallbackByName comps callee else some k
  | none => fallbackByName comps callee

/-- The body of the second loop of _build_components_from_analysis for one
relationship record.  The is_resolved field of the record is read into a
local variable by the source but never consulted, so it does not appear
here.  When the caller maps to a component present in the dictionary and the
callee resolves, the callee component id is added to the caller Node's
depends_on set. -/
def processRel (comps : List (String × Node))
    (mapping : List (String × String)) (r : CallRelationship) :
    List (String × Node) :=
  match dictLookup mapping r.caller with
  | none => comps
  | some c =>
    if c != "" && dictContains comps c then
      match calleeLookup comps mapping r.callee with
      | some k =>
        comps.map
          (fun p =>
            if p.1 == c then (p.1, { p.2 with depends_on := setAdd p.2.depends_on k })
            else p)
      | none => comps
    else comps

/-- DependencyParser._build_components_from_analysis: build the component
dictionary and the id mapping from the serialized function records, then fold
the relationship records into the components' depends_on sets. -/
def buildComponentsFromAnalysis (functions : List Node)
    (relationships : List CallRelationship) : List (String × Node) :=
  let reg := buildRegistry functions
  relationships.foldl (fun comps r => processRel comps reg.2 r) reg.1

/-- DependencyParser.parse_repository restricted to the analysis phase: run
the orchestrator over the per-file analyzer results and build the component
registry from the serialized functions (registry values in insertion order)
and the deduplicated relationships. -/
def parseRepository (files : List (Except String FileAnalysis)) :
    List (String × Node) :=
  let res := analyzeCodeFiles files
  buildComponentsFromAnalysis (res.1.map (fun p => p.2)) res.2

/-- The error-token denylist of DependencyGraphBuilder.build_dependency_graph. -/
def errKeywords : List String :=
  ["error", "exception", "failed", "invalid"]

/-- The string checks of the leaf-filter loop: a candidate identifier is
invalid when it is empty or whitespace-only, or its lowercase form contains
one of the error keywords (the isinstance check is vacuous in a typed
model). -/
def isInvalidLeafString (leaf : String) : Bool :=
  pyStrip leaf == "" || errKeywords.any (fun k => strContains (pyLower leaf) k)

/-- The valid leaf component types of build_dependency_graph: class,
interface and struct; function is added exactly when no component of those
three types exists in the registry. -/
def computeValidTypes (components : List (String × Node)) : List String :=
  if components.any
      (fun p =>
        p.2.component_type == "class" || p.2.component_type == "interface" ||
        p.2.component_type == "struct") then
    ["class", "interface", "struct"]
  else
    ["class", "interface", "struct", "function"]

/-- The per-candidate decision of the leaf-filter loop: keep a candidate that
passes the string checks, is a key of the component registry, and whose
component type is valid. -/
def leafKept (components : List (String × Node)) (leaf : String) : Bool :=
  !isInvalidLeafString leaf &&
  (match dictLookup components leaf with
   | some n => (computeValidTypes components).contains n.component_type
   | none => false)

/-- The leaf-filter loop of DependencyGraphBuilder.build_dependency_graph:
the kept leaf list, in candidate order. -/
def keepLeafNodes (components : List (String × Node)) (leaf_nodes : List String) :
    List String :=
  leaf_nodes.filter (leafKept components)

/-- An abstract filesystem entry for RepoAnalyzer._build_file_tree: a file or
a directory, each carrying its basename, whether it is a symlink, and whether
its resolved path escapes the repository root. -/
inductive FSEntry where
  | file (name : String) (size : Nat) (symlink : Bool) (escapes : Bool)
  | dir (name : String) (symlink : Bool) (escapes : Bool)
      (children : List FSEntry)
deriving Repr

/-- The basename of a filesystem entry. -/
def FSEntry.name : FSEntry → String
  | .file n _ _ _ => n
  | .dir n _ _ _ => n

/-- A node of the FileTree produced by RepoAnalyzer. -/
inductive FileTreeNode where
  | file (name : String) (path : String) (extension : String) (size : Nat)
  | dir (name : String) (path : String) (children : List FileTreeNode)
deriving Repr

/-- Python str.rstrip applied to the slash character. -/
def rstripSlashes (s : String) : String :=
  String.mk ((s.toList.reverse.dropWhile (fun c => c == '/')).reverse)

/-- RepoAnalyzer._should_exclude_path: a path is excluded when some exclude
pattern glob-matches the relative path or the basename, or is a trailing
slash pattern whose stripped form is a prefix of the path, or is a path
prefix of the path or equal to it, or equals one of the slash-separated path
segments.  The glob matcher (Python fnmatch.fnmatch) is standard-library
code, passed in as a parameter. -/
def shouldExcludePath (excl : List String) (fnm : String → String → Bool)
    (path filename : String) : Bool :=
  excl.any
    (fun pattern =>
      fnm path pattern || fnm filename pattern ||
      (pyEndsWith pattern "/" && pyStartsWith path (rstripSlashes pattern)) ||
      pyStartsWith path (pattern ++ "/") || path == pattern ||
      (pySplit path "/").contains pattern)

/-- RepoAnalyzer._should_include_file: with no include patterns everything is
included, otherwise some pattern must glob-match the relative path or the
basename. -/
def shouldIncludeFile (incl : List String) (fnm : String → String → Bool)
    (path filename : String) : Bool :=
  incl.isEmpty ||
  incl.any (fun pattern => fnm path pattern || fnm filename pattern)

/-- Python pathlib suffix of a basename: the part from the last dot on, empty
for a dotless name, a pure leading-dot name, or a trailing-dot name. -/
def pathSuffix (name : String) : String :=
  match pySplit name "." with
  | [] => ""
  | [_] => ""
  | parts =>
    if parts.getLastD "" == "" then ""
    else if parts.length == 2 && pyStartsWith name "." then ""
    else "." ++ parts.getLastD ""

/-- The relative path of a child entry: the root is ".", and a child of the
root drops the "./" prefix (Path.relative_to semantics). -/
def joinRel (rel name : String) : String :=
  if rel == "." then name else rel ++ "/" ++ name

/-- The recursive walk of RepoAnalyzer._build_file_tree on one entry with its
relative path: symlinks and escaped paths are rejected, then the exclusion
check runs, then (for files only) the inclusion check; a directory survives
when it keeps a child or is the root.  The fuel argument (instantiated with
sizeOf, one unit per tree layer, in buildTree below) makes the recursion
structural. -/
def buildTreeFuel (excl incl : List String) (fnm : String → String → Bool) :
    Nat → FSEntry → String → Option FileTreeNode
  | 0, _, _ => none
  | Nat.succ _, .file name size symlink escapes, rel =>
    if symlink then none
    else if escapes then none
    else if shouldExcludePath excl fnm rel name then none
    else if !(shouldIncludeFile incl fnm rel name) then none
    else some (.file name rel (pathSuffix name) size)
  | Nat.succ n, .dir name symlink escapes children, rel =>
    if symlink then none
    else if escapes then none
    else if shouldExcludePath excl fnm rel name then none
    else
      let kids :=
        children.filterMap
          (fun c => buildTreeFuel excl incl fnm n c (joinRel rel c.name))
      if kids.length > 0 || rel == "." then some (.dir name rel kids) else none

/-- RepoAnalyzer._build_file_tree at the repository root, whose relative path
is ".": any fuel at least the tree depth reproduces the recursive walk. -/
def buildFileTree (excl incl : List String) (fnm : String → String → Bool)
    (fuel : Nat) (root : FSEntry) : Option FileTreeNode :=
  buildTreeFuel excl incl fnm fuel root "."

/-- All file entries of a FileTree, as (relative path, basename) pairs, with
a structural fuel argument. -/
def collectFilesFuel : Nat → FileTreeNode → List (String × String)
  | 0, _ => []
  | Nat.succ _, .file name path _ _ => [(path, name)]
  | Nat.succ n, .dir _ _ children =>
    children.flatMap (fun c => collectFilesFuel n c)

/-- A declaration node with the fields the analyzers always fill in, used to
build concrete test inputs: component_id equals id, as every per-language
analyzer sets it. -/
def plainNode (id name fp ct : String) : Node :=
  { id := id, name := name, component_type := ct, file_path := fp,
    relative_path := "", source_code := "", start_line := 1, end_line := 1,
    has_docstring := false, docstring := "", parameters := none,
    node_type := ct, base_classes := none, class_name := none,
    display_name := "", component_id := id, depends_on := [] }

/-- The depends_on set of the component registered under a given id (empty
when the id is absent). -/
def depsOf (comps : List (String × Node)) (c : String) : List String :=
  match dictLookup comps c with
  | some n => n.depends_on
  | none => []

section DictLemmas

variable {α : Type}

theorem dictLookup_nil (k : String) : dictLookup ([] : List (String × α)) k = none := rfl

theorem dictLookup_cons (p : String × α) (d : List (String × α)) (k : String) :
    dictLookup (p :: d) k = if p.1 = k then some p.2 else dictLookup d k := by
  simp only [dictLookup, List.find?]
  by_cases h : p.1 = k
  · simp [h]
  · simp [h, beq_eq_false_iff_ne.mpr h]

theorem dictContains_iff_lookup (d : List (String × α)) (k : String) :
    dictContains d k = true ↔ (dictLookup d k).isSome := by
  induction d with
  | nil => simp [dictContains, dictLookup]
  | cons p rest ih =>
    rw [dictLookup_cons]
    by_cases h : p.1 = k
    · simp [dictContains, h]
    · simp only [dictContains, List.any_cons, Bool.or_eq_true, beq_iff_eq, h, false_or]
      simpa [dictContains] using ih

theorem lookup_overwrite_self (d : List (String × α)) (k : String) (v : α)
    (h : dictContains d k = true) :
    dictLookup (d.map (fun p => if p.1 == k then (k, v) else p)) k = some v := by
  induction d with
  | nil => simp [dictContains] at h
  | cons p rest ih =>
    rw [List.map_cons]
    by_cases hp : p.1 = k
    · rw [if_pos (show (p.1 == k) = true from beq_iff_eq.mpr hp), dictLookup_cons]
      simp
    · rw [if_neg (show ¬ (p.1 == k) = true by simp [hp]), dictLookup_cons, if_neg hp]
      refine ih ?_
      simp only [dictContains, List.any_cons, Bool.or_eq_true, beq_iff_eq] at h
      rcases h with h | h
      · exact absurd h hp
      · exact h

theorem lookup_overwrite_ne (d : List (String × α)) (k : String) (v : α)
    (x : String) (hx : x ≠ k) :
    dictLookup (d.map (fun p => if p.1 == k then (k, v) else p)) x = dictLookup d x := by
  induction d with
  | nil => rfl
  | cons p rest ih =>
    rw [List.map_cons]
    by_cases hp : p.1 = k
    · rw [if_pos (show (p.1 == k) = true from beq_iff_eq.mpr hp), dictLookup_cons,
        dictLookup_cons]
      have h1 : ¬ ((k, v).1 = x) := fun h => hx (h.symm)
      have h2 : ¬ (p.1 = x) := fun h => hx (hp ▸ h).symm
      rw [if_neg h1, if_neg h2, ih]
    · rw [if_neg (show ¬ (p.1 == k) = true by simp [hp]), dictLookup_cons, dictLookup_cons, ih]

theorem lookup_append_single (d : List (String × α)) (k : String) (v : α)
    (x : String) :
    dictLookup (d ++ [(k, v)]) x =
      match dictLookup d x with
      | some w => some w
      | none => if k = x then some v else none := by
  induction d with
  | nil => simp [dictLookup_nil, dictLookup_cons]
  | cons p rest ih =>
    rw [List.cons_append, dictLookup_cons, dictLookup_cons]
    by_cases hp : p.1 = x
    · rw [if_pos hp, if_pos hp]
    · rw [if_neg hp, if_neg hp, ih]

theorem lookup_none_of_not_contains (d : List (String × α)) (k : String)
    (h : dictContains d k = false) : dictLookup d k = none := by
  rcases hl : dictLookup d k with _ | w
  · rfl
  · have hc := (dictContains_iff_lookup d k).mpr (by simp [hl])
    rw [h] at hc
    exact Bool.noConfusion hc

theorem dictLookup_insert (d : List (String × α)) (k : String) (v : α) (x : String) :
    dictLookup (dictInsert d k v) x = if x = k then some v else dictLookup d x := by
  unfold dictInsert
  by_cases hany : (d.any fun p => p.1 == k) = true
  · rw [if_pos hany]
    by_cases hx : x = k
    · subst hx
      rw [if_pos rfl]
      exact lookup_overwrite_self d x v hany
    · rw [if_neg hx]
      exact lookup_overwrite_ne d k v x hx
  · rw [if_neg hany, lookup_append_single]
    by_cases hx : x = k
    · subst hx
      have hfalse : dictContains d x = false := by
        unfold dictContains
        cases hb : (d.any fun p => p.1 == x)
        · rfl
        · exact absurd hb hany
      rw [lookup_none_of_not_contains d x hfalse]
    · have hk : ¬ (k = x) := fun h => hx h.symm
      rcases hl : dictLookup d x with _ | w <;> simp [hk, hx]

theorem dictContains_insert (d : List (String × α)) (k : String) (v : α) (x : String) :
    dictContains (dictInsert d k v) x = (x == k || dictContains d x) := by
  rw [Bool.eq_iff_iff]
  simp only [Bool.or_eq_true, beq_iff_eq]
  rw [dictContains_iff_lookup, dictContains_iff_lookup, dictLookup_insert]
  by_cases hx : x = k <;> simp [hx]

theorem dictLookup_mem {d : List (String × α)} {k : String} {v : α}
    (h : dictLookup d k = some v) : (k, v) ∈ d := by
  induction d with
  | nil => simp [dictLookup] at h
  | cons p rest ih =>
    rw [dictLookup_cons] at h
    by_cases hp : p.1 = k
    · simp only [hp, if_true, Option.some_inj] at h
      have hpv : p = (k, v) := by
        obtain ⟨a, b⟩ := p
        simp only at hp h
        rw [hp, h]
      rw [← hpv]
      exact List.mem_cons_self _ _
    · simp only [hp, if_false] at h
      exact List.mem_cons_of_mem _ (ih h)

end DictLemmas

section DedupLemmas

theorem mem_of_mem_dedup {seen : List (String × String)}
    {l : List CallRelationship} {r : CallRelationship}
    (h : r ∈ dedupRels seen l) : r ∈ l := by
  induction l generalizing seen with
  | nil => simp [dedupRels] at h
  | cons a rest ih =>
    unfold dedupRels at h
    by_cases hc : seen.contains (a.caller, a.callee) = true
    · rw [if_pos hc] at h
      exact List.mem_cons_of_mem _ (ih h)
    · rw [if_neg hc] at h
      rcases List.mem_cons.mp h with h | h
      · exact h ▸ List.mem_cons_self _ _
      · exact List.mem_cons_of_mem _ (ih h)

theorem dedup_not_seen {seen : List (String × String)}
    {l : List CallRelationship} {r : CallRelationship}
    (h : r ∈ dedupRels seen l) : seen.contains (r.caller, r.callee) = false := by
  induction l generalizing seen with
  | nil => simp [dedupRels] at h
  | cons a rest ih =>
    unfold dedupRels at h
    by_cases hc : seen.contains (a.caller, a.callee) = true
    · rw [if_pos hc] at h
      exact ih h
    · rw [if_neg hc] at h
      rcases List.mem_cons.mp h with h | h
      · subst h
        cases hb : seen.contains (r.caller, r.callee)
        · rfl
        · exact absurd hb hc
      · have hcons := ih h
        simp only [List.contains_cons, Bool.or_eq_false_iff] at hcons
        exact hcons.2

theorem dedup_pairwise (seen : List (String × String))
    (l : List CallRelationship) :
    List.Pairwise (fun a b => (a.caller, a.callee) ≠ (b.caller, b.callee))
      (dedupRels seen l) := by
  induction l generalizing seen with
  | nil => exact List.Pairwise.nil
  | cons a rest ih =>
    unfold dedupRels
    by_cases hc : seen.contains (a.caller, a.callee) = true
    · rw [if_pos hc]
      exact ih seen
    · rw [if_neg hc]
      refine List.Pairwise.cons ?_ (ih _)
      intro b hb
      have hbn := dedup_not_seen hb
      simp only [List.contains_cons, Bool.or_eq_false_iff] at hbn
      intro he
      have : ((b.caller, b.callee) == (a.caller, a.callee)) = true := by
        rw [← he]
        exact beq_self_eq_true _
      rw [this] at hbn
      exact Bool.noConfusion hbn.1

theorem dedup_complete {seen : List (String × String)}
    {l : List CallRelationship} {r : CallRelationship}
    (h : r ∈ l) (hs : seen.contains (r.caller, r.callee) = false) :
    ∃ r2 ∈ dedupRels seen l, r2.caller = r.caller ∧ r2.callee = r.callee := by
  induction l generalizing seen with
  | nil => simp at h
  | cons a rest ih =>
    unfold dedupRels
    by_cases hc : seen.contains (a.caller, a.callee) = true
    · rw [if_pos hc]
      rcases List.mem_cons.mp h with he | he
      · subst he
        rw [hs] at hc
        exact Bool.noConfusion hc
      · exact ih he hs
    · rw [if_neg hc]
      rcases List.mem_cons.mp h with he | he
      · subst he
        exact ⟨r, List.mem_cons_self _ _, rfl, rfl⟩
      · by_cases hp : a.caller = r.caller ∧ a.callee = r.callee
        · exact ⟨a, List.mem_cons_self _ _, hp.1, hp.2⟩
        · have hs2 : ((a.caller, a.callee) :: seen).contains
              (r.caller, r.callee) = false := by
            rw [List.contains_cons, hs, Bool.or_false]
            refine beq_eq_false_iff_ne.mpr ?_
            intro he2
            exact hp ⟨(Prod.mk.injEq _ _ _ _ ▸ he2).1.symm,
              (Prod.mk.injEq _ _ _ _ ▸ he2).2.symm⟩
          obtain ⟨r2, hr2, he2⟩ := ih he hs2
          exact ⟨r2, List.mem_cons_of_mem _ hr2, he2⟩

theorem dedup_find_first {seen : List (String × String)}
    {l : List CallRelationship} {r : CallRelationship}
    (h : r ∈ dedupRels seen l) :
    l.find? (fun x => x.caller == r.caller && x.callee == r.callee) = some r := by
  induction l generalizing seen with
  | nil => simp [dedupRels] at h
  | cons a rest ih =>
    unfold dedupRels at h
    by_cases hc : seen.contains (a.caller, a.callee) = true
    · rw [if_pos hc] at h
      have hne : ¬ (a.caller == r.caller && a.callee == r.callee) = true := by
        intro he
        simp only [Bool.and_eq_true, beq_iff_eq] at he
        have hf := dedup_not_seen h
        rw [he.1, he.2, hf] at hc
        exact Bool.noConfusion hc
      rw [List.find?_cons_of_neg (p := fun x => x.caller == r.caller && x.callee == r.callee) rest hne]
      exact ih h
    · rw [if_neg hc] at h
      rcases List.mem_cons.mp h with h | h
      · subst h
        refine List.find?_cons_of_pos _ ?_
        simp
      · have hbn := dedup_not_seen h
        simp only [List.contains_cons, Bool.or_eq_false_iff] at hbn
        have hne : ¬ (a.caller == r.caller && a.callee == r.callee) = true := by
          intro he
          simp only [Bool.and_eq_true, beq_iff_eq] at he
          have : ((r.caller, r.callee) == (a.caller, a.callee)) = true := by
            rw [he.1, he.2]
            exact beq_self_eq_true _
          rw [this] at hbn
          exact Bool.noConfusion hbn.1
        rw [List.find?_cons_of_neg (p := fun x => x.caller == r.caller && x.callee == r.callee) rest hne]
        exact ih h

end DedupLemmas

/-- Frame facts about the resolution of one relationship: the caller and the
call line are never touched, and a relationship that is already marked
resolved stays marked resolved. -/
theorem resolveRel_frame (lk : List (String × String)) (r : CallRelationship) :
    (resolveRel lk r).caller = r.caller ∧
    (resolveRel lk r).call_line = r.call_line ∧
    (r.is_resolved = true → (resolveRel lk r).is_resolved = true) := by
  rcases h1 : dictLookup lk r.callee with _ | fid
  · rcases h2 : dictLookup lk (lastSuffix r.callee) with _ | fid2 <;>
      by_cases hd : strContains r.callee "." = true <;>
        simp [resolveRel, h1, h2, hd]
  · simp [resolveRel, h1]

/-- C5: after analyze_code_files, no two relationships share a
(caller, callee) pair; every surviving relationship is exactly the first
relationship with its (caller, callee) pair in the pre-deduplication
(post-resolution) list, so the surviving call_line is the first
occurrence's; and every pre-deduplication pair keeps a representative. -/
theorem c5_dedup_keeps_first_occurrence
    (files : List (Except String FileAnalysis)) :
    List.Pairwise
      (fun a b => ¬ (a.caller = b.caller ∧ a.callee = b.callee))
      (analyzeCodeFiles files).2 ∧
    (∀ r ∈ (analyzeCodeFiles files).2,
      (resolveCallRelationships (mergeFiles files).1 (mergeFiles files).2).find?
        (fun x => x.caller == r.caller && x.callee == r.callee) = some r) ∧
    ∀ r ∈ resolveCallRelationships (mergeFiles files).1 (mergeFiles files).2,
      ∃ r2 ∈ (analyzeCodeFiles files).2,
        r2.caller = r.caller ∧ r2.callee = r.callee := by
  refine ⟨?_, ?_, ?_⟩
  · refine (dedup_pairwise [] _).imp ?_
    intro a b hne hab
    exact hne (by rw [hab.1, hab.2])
  · intro r hr
    exact dedup_find_first hr
  · intro r hr
    exact dedup_complete hr rfl

/-- C6: an analyzer failure on one file (a caught exception) contributes no
nodes and no relationships, and the outcome for all other files is exactly
the outcome of the run without the failing file; in particular the exception
never escapes analyze_code_files, which stays a total function of the
per-file results. -/
theorem c6_failing_file_is_isolated (pre post : List (Except String FileAnalysis))
    (e : String) :
    analyzeCodeFiles (pre ++ Except.error e :: post) =
      analyzeCodeFiles (pre ++ post) := by
  have hm : mergeFiles (pre ++ Except.error e :: post) = mergeFiles (pre ++ post) := by
    unfold mergeFiles
    rw [List.foldl_append, List.foldl_append, List.foldl_cons]
  unfold analyzeCodeFiles
  rw [hm]

/-- C10: the resolution pass leaves the functions registry unchanged and, for
every relationship position, preserves the caller and the call line and never
clears is_resolved; the deduplication pass also leaves the registry unchanged
and only drops (never alters) relationships. -/
theorem c10_resolution_frame (s : AnalyzerState) :
    (resolveStep s).functions = s.functions ∧
    (dedupStep s).functions = s.functions ∧
    List.Forall₂
      (fun r rr => rr.caller = r.caller ∧ rr.call_line = r.call_line ∧
        (r.is_resolved = true → rr.is_resolved = true))
      s.call_relationships (resolveStep s).call_relationships ∧
    ∀ r ∈ (dedupStep s).call_relationships, r ∈ s.call_relationships := by
  refine ⟨rfl, rfl, ?_, ?_⟩
  · show List.Forall₂ _ s.call_relationships
      (s.call_relationships.map (resolveRel (buildFuncLookup s.functions)))
    rw [List.forall₂_map_right_iff]
    refine List.forall₂_same.mpr ?_
    intro a _
    exact resolveRel_frame _ a
  · intro r hr
    exact mem_of_mem_dedup hr

/-- C7: when the component registry holds at least one class, interface or
struct component, every kept leaf is of one of those three types; when it
holds none, a candidate leaf that passes the string checks and is registered
as a function is kept. -/
theorem c7_leaf_type_selection (comps : List (String × Node))
    (leaves : List String) :
    ((∃ p ∈ comps, p.2.component_type = "class" ∨
        p.2.component_type = "interface" ∨ p.2.component_type = "struct") →
      ∀ l ∈ keepLeafNodes comps leaves, ∃ n, dictLookup comps l = some n ∧
        (n.component_type = "class" ∨ n.component_type = "interface" ∨
          n.component_type = "struct")) ∧
    ((∀ p ∈ comps, ¬ (p.2.component_type = "class" ∨
        p.2.component_type = "interface" ∨ p.2.component_type = "struct")) →
      ∀ l ∈ leaves, isInvalidLeafString l = false →
        ∀ n, dictLookup comps l = some n → n.component_type = "function" →
          l ∈ keepLeafNodes comps leaves) := by
  have hcond : (comps.any fun p => p.2.component_type == "class" ||
      p.2.component_type == "interface" || p.2.component_type == "struct") = true ↔
      ∃ p ∈ comps, p.2.component_type = "class" ∨
        p.2.component_type = "interface" ∨ p.2.component_type = "struct" := by
    simp only [List.any_eq_true, Bool.or_eq_true, beq_iff_eq, or_assoc]
  constructor
  · intro hex l hl
    rw [keepLeafNodes, List.mem_filter] at hl
    obtain ⟨-, hkept⟩ := hl
    unfold leafKept at hkept
    rcases hlook : dictLookup comps l with _ | n
    · rw [hlook] at hkept
      simp at hkept
    · rw [hlook] at hkept
      refine ⟨n, rfl, ?_⟩
      simp only [Bool.and_eq_true] at hkept
      have hvalid := hkept.2
      unfold computeValidTypes at hvalid
      rw [if_pos (hcond.mpr hex)] at hvalid
      simpa using hvalid
  · intro hall l hl hinv n hlook hfn
    rw [keepLeafNodes, List.mem_filter]
    refine ⟨hl, ?_⟩
    unfold leafKept
    rw [hinv, hlook]
    have hnc : ¬ (comps.any fun p => p.2.component_type == "class" ||
        p.2.component_type == "interface" || p.2.component_type == "struct") = true := by
      intro hc
      obtain ⟨p, hp, hty⟩ := hcond.mp hc
      exact hall p hp hty
    unfold computeValidTypes
    rw [if_neg hnc]
    simp [hfn]

/-- C8: a leaf candidate that is not a registry key, or is empty or
whitespace-only, or whose lowercase form contains an error keyword, never
appears in the kept leaf list. -/
theorem c8_contaminated_leaf_dropped (comps : List (String × Node))
    (leaves : List String) (l : String)
    (h : dictLookup comps l = none ∨ pyStrip l = "" ∨
      ∃ k ∈ errKeywords, strContains (pyLower l) k = true) :
    l ∉ keepLeafNodes comps leaves := by
  intro hmem
  rw [keepLeafNodes, List.mem_filter] at hmem
  obtain ⟨-, hkept⟩ := hmem
  unfold leafKept at hkept
  rcases h with h | h | h
  · rw [h] at hkept
    simp at hkept
  · have hinv : isInvalidLeafString l = true := by
      unfold isInvalidLeafString
      rw [h]
      simp
    rw [hinv] at hkept
    simp at hkept
  · have hinv : isInvalidLeafString l = true := by
      obtain ⟨k, hk, hc⟩ := h
      have hany : (errKeywords.any fun k => strContains (pyLower l) k) = true :=
        List.any_eq_true.mpr ⟨k, hk, hc⟩
      unfold isInvalidLeafString
      rw [hany]
      simp
    rw [hinv] at hkept
    simp at hkept


/-- Every file surviving the walk was cleared by the exclusion check, at any
fuel for the walk and any fuel for the file collection. -/
theorem buildTreeFuel_files_not_excluded (excl incl : List String)
    (fnm : String → String → Bool) :
    ∀ (n : Nat) (e : FSEntry) (rel : String) (t : FileTreeNode) (m : Nat),
      buildTreeFuel excl incl fnm n e rel = some t →
      ∀ p ∈ collectFilesFuel m t, shouldExcludePath excl fnm p.1 p.2 = false := by
  intro n
  induction n with
  | zero =>
    intro e rel t m h
    exact absurd h (by simp [buildTreeFuel])
  | succ n ih =>
    intro e rel t m h p hp
    cases e with
    | file name size symlink escapes =>
      simp only [buildTreeFuel] at h
      split at h
      · exact absurd h (by simp)
      · split at h
        · exact absurd h (by simp)
        · split at h
          · exact absurd h (by simp)
          · split at h
            · exact absurd h (by simp)
            · rename_i hsym hesc hexcl hincl
              have ht : FileTreeNode.file name rel (pathSuffix name) size = t :=
                Option.some_inj.mp h
              rw [← ht] at hp
              cases m with
              | zero => simp [collectFilesFuel] at hp
              | succ m =>
                simp only [collectFilesFuel, List.mem_singleton] at hp
                subst hp
                cases hb : shouldExcludePath excl fnm rel name
                · rfl
                · exact absurd hb hexcl
    | dir name symlink escapes children =>
      simp only [buildTreeFuel] at h
      split at h
      · exact absurd h (by simp)
      · split at h
        · exact absurd h (by simp)
        · split at h
          · exact absurd h (by simp)
          · split at h
            · rename_i hsym hesc hexcl hkeep
              have ht : FileTreeNode.dir name rel
                  (children.filterMap
                    (fun c => buildTreeFuel excl incl fnm n c (joinRel rel c.name))) =
                  t := Option.some_inj.mp h
              rw [← ht] at hp
              cases m with
              | zero => simp [collectFilesFuel] at hp
              | succ m =>
                simp only [collectFilesFuel] at hp
                rw [List.mem_flatMap] at hp
                obtain ⟨kid, hkid, hpkid⟩ := hp
                rw [List.mem_filterMap] at hkid
                obtain ⟨c, hc, hbuild⟩ := hkid
                exact ih c (joinRel rel c.name) kid m hbuild p hpkid
            · exact absurd h (by simp)

/-- C9: a file whose relative path or basename is matched by the exclusion
predicate (glob on the full relative path or basename, trailing-slash prefix,
path prefix or equality, or path-segment equality, over any exclude pattern)
never appears in the produced FileTree, whatever the include patterns say:
the exclusion check runs before the inclusion check, so exclude dominates
include. -/
theorem c9_exclude_dominates_include (excl incl : List String)
    (fnm : String → String → Bool) (fuel : Nat) (root : FSEntry)
    (t : FileTreeNode) (h : buildFileTree excl incl fnm fuel root = some t) :
    ∀ (m : Nat), ∀ p ∈ collectFilesFuel m t,
      shouldExcludePath excl fnm p.1 p.2 = false :=
  fun m => buildTreeFuel_files_not_excluded excl incl fnm fuel root "." t m h

section LookupLemmas

theorem dictContains_of_lookup_some {α : Type} {d : List (String × α)}
    {k : String} {v : α} (h : dictLookup d k = some v) :
    dictContains d k = true :=
  (dictContains_iff_lookup d k).mpr (by rw [h]; rfl)

theorem insertFuncKeys_contains_preserve (lk : List (String × String))
    (fid : String) (f : Node) (x : String) (h : dictContains lk x = true) :
    dictContains (insertFuncKeys lk fid f) x = true := by
  simp only [insertFuncKeys]
  have h1 : dictContains (dictInsert lk fid fid) x = true := by
    rw [dictContains_insert, h, Bool.or_true]
  have h2 : dictContains (dictInsert (dictInsert lk fid fid) f.name fid) x = true := by
    rw [dictContains_insert, h1, Bool.or_true]
  by_cases hc : (f.component_id != "") = true
  · rw [if_pos hc]
    have h3 : dictContains (dictInsert (dictInsert (dictInsert lk fid fid) f.name fid)
        f.component_id fid) x = true := by
      rw [dictContains_insert, h2, Bool.or_true]
    by_cases hm : dictContains (dictInsert (dictInsert (dictInsert lk fid fid) f.name fid)
        f.component_id fid) (lastSuffix f.component_id) = true
    · rw [if_pos hm]
      exact h3
    · rw [if_neg hm, dictContains_insert, h3, Bool.or_true]
  · rw [if_neg hc]
    exact h2

theorem insertFuncKeys_lookup_name (lk : List (String × String)) (fid : String)
    (f : Node) : dictLookup (insertFuncKeys lk fid f) f.name = some fid := by
  simp only [insertFuncKeys]
  have hbase : dictLookup (dictInsert (dictInsert lk fid fid) f.name fid) f.name
      = some fid := by
    rw [dictLookup_insert, if_pos rfl]
  by_cases hc : (f.component_id != "") = true
  · rw [if_pos hc]
    have h3 : dictLookup (dictInsert (dictInsert (dictInsert lk fid fid) f.name fid)
        f.component_id fid) f.name = some fid := by
      rw [dictLookup_insert]
      by_cases he : f.name = f.component_id
      · rw [if_pos he]
      · rw [if_neg he]
        exact hbase
    by_cases hm : dictContains (dictInsert (dictInsert (dictInsert lk fid fid) f.name fid)
        f.component_id fid) (lastSuffix f.component_id) = true
    · rw [if_pos hm]
      exact h3
    · rw [if_neg hm, dictLookup_insert]
      by_cases he : f.name = lastSuffix f.component_id
      · rw [if_pos he]
      · rw [if_neg he]
        exact h3
  · rw [if_neg hc]
    exact hbase

theorem insertFuncKeys_lookup_ne (lk : List (String × String)) (fid : String)
    (f : Node) (x : String) (h1 : x ≠ fid) (h2 : x ≠ f.name)
    (h3 : x ≠ f.component_id) (h4 : dictContains lk x = true) :
    dictLookup (insertFuncKeys lk fid f) x = dictLookup lk x := by
  simp only [insertFuncKeys]
  have e1 : dictLookup (dictInsert lk fid fid) x = dictLookup lk x := by
    rw [dictLookup_insert, if_neg h1]
  have e2 : dictLookup (dictInsert (dictInsert lk fid fid) f.name fid) x
      = dictLookup lk x := by
    rw [dictLookup_insert, if_neg h2, e1]
  have c2 : dictContains (dictInsert (dictInsert lk fid fid) f.name fid) x = true := by
    rw [dictContains_insert, dictContains_insert, h4]
    simp
  by_cases hc : (f.component_id != "") = true
  · rw [if_pos hc]
    have e3 : dictLookup (dictInsert (dictInsert (dictInsert lk fid fid) f.name fid)
        f.component_id fid) x = dictLookup lk x := by
      rw [dictLookup_insert, if_neg h3, e2]
    have c3 : dictContains (dictInsert (dictInsert (dictInsert lk fid fid) f.name fid)
        f.component_id fid) x = true := by
      rw [dictContains_insert, c2, Bool.or_true]
    by_cases hm : dictContains (dictInsert (dictInsert (dictInsert lk fid fid) f.name fid)
        f.component_id fid) (lastSuffix f.component_id) = true
    · rw [if_pos hm]
      exact e3
    · rw [if_neg hm]
      have hmx : x ≠ lastSuffix f.component_id := by
        intro he
        rw [← he] at hm
        exact hm c3
      rw [dictLookup_insert, if_neg hmx, e3]
  · rw [if_neg hc]
    exact e2

end LookupLemmas

/-- C4: with two files each contributing a top-level function of the same
bare name and a third file calling that bare name, the call edge resolves
(is_resolved becomes true) and its callee is the id of the function that was
registered last; the edge is not left unresolved because of the ambiguity.
The side conditions state that the three ids are distinct, non-empty,
path-qualified ids and that the third file's node does not itself reuse the
ambiguous bare name. -/
theorem c4_last_registered_wins
    (na nb nc : Node) (p1 p2 p3 cal nm : String) (ln : Nat)
    (_hna : na.name = nm) (hnb : nb.name = nm)
    (ha0 : na.id ≠ "") (hb0 : nb.id ≠ "") (hc0 : nc.id ≠ "")
    (hab : na.id ≠ nb.id) (hca : nc.id ≠ na.id) (hcb : nc.id ≠ nb.id)
    (hc1 : nm ≠ nc.id) (hc2 : nm ≠ nc.name) (hc3 : nm ≠ nc.component_id) :
    (analyzeCodeFiles
        [Except.ok ⟨p1, [na], []⟩, Except.ok ⟨p2, [nb], []⟩,
         Except.ok ⟨p3, [nc], [⟨cal, nm, ln, false⟩]⟩]).2 =
      [⟨cal, nb.id, ln, true⟩] ∧
    dictContains
      (analyzeCodeFiles
        [Except.ok ⟨p1, [na], []⟩, Except.ok ⟨p2, [nb], []⟩,
         Except.ok ⟨p3, [nc], [⟨cal, nm, ln, false⟩]⟩]).1 nb.id = true := by
  have hmerge : mergeFiles
      [Except.ok ⟨p1, [na], []⟩, Except.ok ⟨p2, [nb], []⟩,
       Except.ok ⟨p3, [nc], [⟨cal, nm, ln, false⟩]⟩] =
      ([(na.id, na), (nb.id, nb), (nc.id, nc)],
       [⟨cal, nm, ln, false⟩]) := by
    simp [mergeFiles, registerNodes, dictInsert, ha0, hb0, hc0, hab,
      Ne.symm hca, Ne.symm hcb]
  have hlk : dictLookup
      (buildFuncLookup [(na.id, na), (nb.id, nb), (nc.id, nc)]) nm = some nb.id := by
    have hfold : buildFuncLookup [(na.id, na), (nb.id, nb), (nc.id, nc)] =
        insertFuncKeys (insertFuncKeys (insertFuncKeys [] na.id na) nb.id nb)
          nc.id nc := by
      simp [buildFuncLookup]
    rw [hfold]
    have hmid : dictLookup (insertFuncKeys (insertFuncKeys [] na.id na) nb.id nb) nm
        = some nb.id := by
      have := insertFuncKeys_lookup_name (insertFuncKeys [] na.id na) nb.id nb
      rw [hnb] at this
      exact this
    rw [insertFuncKeys_lookup_ne _ _ _ nm hc1 hc2 hc3
      (dictContains_of_lookup_some hmid)]
    exact hmid
  constructor
  · show (dedupStep (resolveStep ⟨_, _⟩)).call_relationships = _
    rw [hmerge]
    simp only [dedupStep, resolveStep, resolveCallRelationships, List.map]
    rw [show resolveRel (buildFuncLookup [(na.id, na), (nb.id, nb), (nc.id, nc)])
        ⟨cal, nm, ln, false⟩ = ⟨cal, nb.id, ln, true⟩ by
      unfold resolveRel
      rw [show (⟨cal, nm, ln, false⟩ : CallRelationship).callee = nm from rfl, hlk]]
    rfl
  · show dictContains (dedupStep (resolveStep ⟨_, _⟩)).functions nb.id = true
    rw [hmerge]
    simp only [dedupStep, resolveStep]
    simp [dictContains]

section FuncLookupLemmas

theorem dictInsert_lookup_values {α : Type} {d : List (String × α)} {k0 : String}
    {v0 : α} {k : String} {v : α}
    (h : dictLookup (dictInsert d k0 v0) k = some v) :
    v = v0 ∨ dictLookup d k = some v := by
  rw [dictLookup_insert] at h
  by_cases hk : k = k0
  · rw [if_pos hk] at h
    exact Or.inl (Option.some_inj.mp h).symm
  · rw [if_neg hk] at h
    exact Or.inr h

theorem insertFuncKeys_lookup_values {lk : List (String × String)} {fid : String}
    {f : Node} {k v : String}
    (h : dictLookup (insertFuncKeys lk fid f) k = some v) :
    v = fid ∨ dictLookup lk k = some v := by
  simp only [insertFuncKeys] at h
  by_cases hc : (f.component_id != "") = true
  · rw [if_pos hc] at h
    by_cases hm : dictContains
        (dictInsert (dictInsert (dictInsert lk fid fid) f.name fid) f.component_id fid)
        (lastSuffix f.component_id) = true
    · rw [if_pos hm] at h
      rcases dictInsert_lookup_values h with h | h
      · exact Or.inl h
      rcases dictInsert_lookup_values h with h | h
      · exact Or.inl h
      rcases dictInsert_lookup_values h with h | h
      · exact Or.inl h
      · exact Or.inr h
    · rw [if_neg hm] at h
      rcases dictInsert_lookup_values h with h | h
      · exact Or.inl h
      rcases dictInsert_lookup_values h with h | h
      · exact Or.inl h
      rcases dictInsert_lookup_values h with h | h
      · exact Or.inl h
      rcases dictInsert_lookup_values h with h | h
      · exact Or.inl h
      · exact Or.inr h
  · rw [if_neg hc] at h
    rcases dictInsert_lookup_values h with h | h
    · exact Or.inl h
    rcases dictInsert_lookup_values h with h | h
    · exact Or.inl h
    · exact Or.inr h

theorem insertFuncKeys_contains_fid (lk : List (String × String)) (fid : String)
    (f : Node) : dictContains (insertFuncKeys lk fid f) fid = true := by
  simp only [insertFuncKeys]
  have h1 : dictContains (dictInsert lk fid fid) fid = true := by
    rw [dictContains_insert]
    simp
  have h2 : dictContains (dictInsert (dictInsert lk fid fid) f.name fid) fid = true := by
    rw [dictContains_insert, h1, Bool.or_true]
  by_cases hc : (f.component_id != "") = true
  · rw [if_pos hc]
    have h3 : dictContains
        (dictInsert (dictInsert (dictInsert lk fid fid) f.name fid) f.component_id fid)
        fid = true := by
      rw [dictContains_insert, h2, Bool.or_true]
    by_cases hm : dictContains
        (dictInsert (dictInsert (dictInsert lk fid fid) f.name fid) f.component_id fid)
        (lastSuffix f.component_id) = true
    · rw [if_pos hm]
      exact h3
    · rw [if_neg hm, dictContains_insert, h3, Bool.or_true]
  · rw [if_neg hc]
    exact h2

theorem foldFuncLookup_contains (l : List (String × Node))
    (lk : List (String × String)) (x : String)
    (h : dictContains lk x = true ∨ ∃ p ∈ l, p.1 = x ∨ p.2.name = x) :
    dictContains (l.foldl (fun lk p => insertFuncKeys lk p.1 p.2) lk) x = true := by
  induction l generalizing lk with
  | nil =>
    rcases h with h | ⟨p, hp, _⟩
    · exact h
    · simp at hp
  | cons q rest ih =>
    rw [List.foldl_cons]
    rcases h with h | ⟨p, hp, hx⟩
    · exact ih _ (Or.inl (insertFuncKeys_contains_preserve _ _ _ _ h))
    · rcases List.mem_cons.mp hp with hq | hp2
      · subst hq
        rcases hx with hx | hx
        · refine ih _ (Or.inl ?_)
          rw [← hx]
          exact insertFuncKeys_contains_fid lk p.1 p.2
        · refine ih _ (Or.inl ?_)
          rw [← hx]
          exact dictContains_of_lookup_some (insertFuncKeys_lookup_name lk p.1 p.2)
      · exact ih _ (Or.inr ⟨p, hp2, hx⟩)

theorem foldFuncLookup_values (l : List (String × Node))
    (lk : List (String × String)) (P : String → Prop)
    (hlk : ∀ k v, dictLookup lk k = some v → P v)
    (hl : ∀ p ∈ l, P p.1) :
    ∀ k v, dictLookup (l.foldl (fun lk p => insertFuncKeys lk p.1 p.2) lk) k = some v →
      P v := by
  induction l generalizing lk with
  | nil => exact hlk
  | cons q rest ih =>
    rw [List.foldl_cons]
    refine ih _ ?_ (fun p hp => hl p (List.mem_cons_of_mem _ hp))
    intro k v hkv
    rcases insertFuncKeys_lookup_values hkv with h | h
    · rw [h]
      exact hl q (List.mem_cons_self _ _)
    · exact hlk _ _ h

theorem buildFuncLookup_values {reg : List (String × Node)} {k v : String}
    (h : dictLookup (buildFuncLookup reg) k = some v) :
    dictContains reg v = true := by
  refine foldFuncLookup_values reg [] (fun v => dictContains reg v = true) ?_ ?_ k v h
  · intro k v hkv
    simp [dictLookup] at hkv
  · intro p hp
    refine List.any_eq_true.mpr ⟨p, hp, ?_⟩
    simp

theorem buildFuncLookup_contains_key {reg : List (String × Node)} {x : String}
    (h : dictContains reg x = true) :
    dictContains (buildFuncLookup reg) x = true := by
  refine foldFuncLookup_contains reg [] x (Or.inr ?_)
  obtain ⟨p, hp, he⟩ := List.any_eq_true.mp h
  exact ⟨p, hp, Or.inl (by simpa using he)⟩

theorem buildFuncLookup_contains_name {reg : List (String × Node)}
    {p : String × Node} (hp : p ∈ reg) :
    dictContains (buildFuncLookup reg) p.2.name = true :=
  foldFuncLookup_contains reg [] p.2.name (Or.inr ⟨p, hp, Or.inr rfl⟩)

end FuncLookupLemmas

/-- C1 (amended): after analyze_code_files, every relationship marked
resolved either has a callee that is a key of the returned functions
registry, or entered the resolution pass already marked resolved with a
callee that misses every key of the multi-key lookup (both as an exact
string and, when it contains a dot, through the text after its last dot):
such a relationship passes through the pass untouched, keeping is_resolved
with a callee that need not be a registry key.  The original claim fails on
the second alternative: javascript.py can emit such an edge through its
export-default rename (see the counterexample below). -/
theorem c1_resolved_callee_amended
    (files : List (Except String FileAnalysis)) :
    ∀ r ∈ (analyzeCodeFiles files).2, r.is_resolved = true →
      dictContains (analyzeCodeFiles files).1 r.callee = true ∨
      (r ∈ (mergeFiles files).2 ∧
        dictLookup (buildFuncLookup (mergeFiles files).1) r.callee = none ∧
        (strContains r.callee "." = false ∨
          dictLookup (buildFuncLookup (mergeFiles files).1)
            (lastSuffix r.callee) = none)) := by
  intro r hr _hres
  have hr2 : r ∈ resolveCallRelationships (mergeFiles files).1 (mergeFiles files).2 :=
    mem_of_mem_dedup hr
  rw [resolveCallRelationships, List.mem_map] at hr2
  obtain ⟨r0, hr0, hre⟩ := hr2
  rcases h1 : dictLookup (buildFuncLookup (mergeFiles files).1) r0.callee with _ | fid
  · by_cases hd : strContains r0.callee "." = true
    · rcases h2 : dictLookup (buildFuncLookup (mergeFiles files).1)
          (lastSuffix r0.callee) with _ | fid2
      · have hrr : r = r0 := by
          rw [← hre]
          simp [resolveRel, h1, h2, hd]
        subst hrr
        exact Or.inr ⟨hr0, h1, Or.inr h2⟩
      · have hrr : r = { r0 with callee := fid2, is_resolved := true } := by
          rw [← hre]
          simp [resolveRel, h1, h2, hd]
        refine Or.inl ?_
        rw [hrr]
        exact buildFuncLookup_values h2
    · have hrr : r = r0 := by
        rw [← hre]
        simp [resolveRel, h1, hd]
      subst hrr
      refine Or.inr ⟨hr0, h1, Or.inl ?_⟩
      cases hb : strContains r.callee "."
      · rfl
      · exact absurd hb hd
  · have hrr : r = { r0 with callee := fid, is_resolved := true } := by
      rw [← hre]
      simp [resolveRel, h1]
    refine Or.inl ?_
    rw [hrr]
    exact buildFuncLookup_values h1

/-- The repository of C1's counterexample, mirroring the per-file output of
javascript.py on a file a.js that default-exports a named function foo whose
body also holds an anonymous function expression, next to a top-level
function f that calls obj.default().  _extract_exported_function extracts
foo with id m.foo, then renames it to "default" because the export text
contains both "export default" and "function (" (lines 350-352), and it is
keyed in top_level_nodes under the bare name "default"; the traversal then
re-visits the inner function_declaration and extracts a second node with the
same id m.foo and the original name foo, which overwrites the renamed node
in the orchestrator registry.  The obj.default() call hits the bare key
"default" in _extract_call_from_node (line 516), so the edge is emitted
pre-marked resolved with callee m.default. -/
def exportDefaultFiles : List (Except String FileAnalysis) :=
  [Except.ok ⟨"a.js",
    [plainNode "m.foo" "default" "/r/a.js" "function",
     plainNode "m.foo" "foo" "/r/a.js" "function",
     plainNode "m.f" "f" "/r/a.js" "function"],
    [⟨"m.f", "m.default", 7, true⟩]⟩]

/-- C1 (counterexample): on the export-default repository the pre-marked
edge survives analyze_code_files still marked resolved, with callee
m.default, while the returned registry has only the keys m.foo and m.f —
a resolved relationship whose callee is not a registry key, contrary to the
claim. -/
theorem c1_counterexample :
    (analyzeCodeFiles exportDefaultFiles).2 = [⟨"m.f", "m.default", 7, true⟩] ∧
    dictContains (analyzeCodeFiles exportDefaultFiles).1 "m.default" = false :=
  ⟨rfl, rfl⟩

section BuildComponentsLemmas

/-- The contribution one relationship record makes to the depends_on set of
the component registered under x, read against the initial registry and id
mapping: the second loop of _build_components_from_analysis adds exactly this
callee component id, and the is_resolved field plays no part. -/
def relContribution (comps : List (String × Node))
    (mapping : List (String × String)) (x : String) (r : CallRelationship) :
    Option String :=
  match dictLookup mapping r.caller with
  | none => none
  | some c =>
    if c == x && c != "" && dictContains comps c then
      calleeLookup comps mapping r.callee
    else none

theorem dictLookup_map_update {c : String} {g : Node → Node}
    (comps : List (String × Node)) (x : String) :
    dictLookup (comps.map (fun p => if p.1 == c then (p.1, g p.2) else p)) x =
      (if x = c then (dictLookup comps x).map g else dictLookup comps x) := by
  induction comps with
  | nil => by_cases hx : x = c <;> simp [dictLookup_nil, hx]
  | cons p rest ih =>
    rw [List.map_cons]
    by_cases hp : p.1 = c
    · rw [if_pos (show (p.1 == c) = true from beq_iff_eq.mpr hp), dictLookup_cons,
        dictLookup_cons]
      by_cases hx : x = c
      · rw [if_pos hx]
        by_cases hpx : p.1 = x
        · simp only [hpx, if_true]
          rfl
        · rw [if_neg hpx, if_neg hpx, ih, if_pos hx]
      · have hpx : ¬ (p.1 = x) := fun h => hx ((h.symm).trans hp)
        rw [if_neg hx, if_neg hpx, if_neg hpx, ih, if_neg hx]
    · rw [if_neg (show ¬ (p.1 == c) = true by simp [hp]), dictLookup_cons,
        dictLookup_cons]
      by_cases hpx : p.1 = x
      · have hx : ¬ (x = c) := fun h => hp (hpx.trans h)
        rw [if_pos hpx, if_pos hpx, if_neg hx]
      · rw [if_neg hpx, if_neg hpx, ih]

theorem fallbackByName_congr {c1 c2 : List (String × Node)} (x : String)
    (h : c1.map (fun p => (p.1, p.2.name)) = c2.map (fun p => (p.1, p.2.name))) :
    fallbackByName c1 x = fallbackByName c2 x := by
  induction c1 generalizing c2 with
  | nil =>
    cases c2 with
    | nil => rfl
    | cons q qs => simp at h
  | cons p ps ih =>
    cases c2 with
    | nil => simp at h
    | cons q qs =>
      simp only [List.map_cons, List.cons.injEq, Prod.mk.injEq] at h
      obtain ⟨⟨hk, hn⟩, ht⟩ := h
      by_cases he : p.2.name = x
      · have he2 : q.2.name = x := hn ▸ he
        unfold fallbackByName
        rw [List.find?_cons_of_pos (p := fun z => z.2.name == x) ps (beq_iff_eq.mpr he),
          List.find?_cons_of_pos (p := fun z => z.2.name == x) qs (beq_iff_eq.mpr he2)]
        simp [hk]
      · have he2 : ¬ (q.2.name = x) := fun h2 => he (hn ▸ h2)
        unfold fallbackByName
        rw [List.find?_cons_of_neg (p := fun z => z.2.name == x) ps (by simp [he]),
          List.find?_cons_of_neg (p := fun z => z.2.name == x) qs (by simp [he2])]
        have := ih ht
        simpa [fallbackByName] using this

theorem dictContains_congr_keys {α β : Type} {c1 : List (String × α)}
    {c2 : List (String × β)} (x : String)
    (h : c1.map (fun p => p.1) = c2.map (fun p => p.1)) :
    dictContains c1 x = dictContains c2 x := by
  induction c1 generalizing c2 with
  | nil =>
    cases c2 with
    | nil => rfl
    | cons q qs => simp at h
  | cons p ps ih =>
    cases c2 with
    | nil => simp at h
    | cons q qs =>
      simp only [List.map_cons, List.cons.injEq] at h
      obtain ⟨hk, ht⟩ := h
      simp only [dictContains, List.any_cons]
      rw [hk, show qs.any (fun p => p.1 == x) = dictContains qs x from rfl,
        ← ih ht]
      rfl

theorem calleeLookup_congr {c1 c2 : List (String × Node)}
    (mapping : List (String × String)) (x : String)
    (h : c1.map (fun p => (p.1, p.2.name)) = c2.map (fun p => (p.1, p.2.name))) :
    calleeLookup c1 mapping x = calleeLookup c2 mapping x := by
  unfold calleeLookup
  cases dictLookup mapping x with
  | none => exact fallbackByName_congr x h
  | some k =>
    dsimp only
    by_cases hk : (k == "") = true
    · rw [if_pos hk, if_pos hk]
      exact fallbackByName_congr x h
    · rw [if_neg hk, if_neg hk]

theorem skel_of_map_keys {c1 c2 : List (String × Node)}
    (h : c1.map (fun p => (p.1, p.2.name)) = c2.map (fun p => (p.1, p.2.name))) :
    c1.map (fun p => p.1) = c2.map (fun p => p.1) := by
  have := congrArg (List.map (fun q : String × String => q.1)) h
  simpa [List.map_map, Function.comp] using this

theorem processRel_skel (comps : List (String × Node))
    (mapping : List (String × String)) (r : CallRelationship) :
    (processRel comps mapping r).map (fun p => (p.1, p.2.name)) =
      comps.map (fun p => (p.1, p.2.name)) := by
  unfold processRel
  cases dictLookup mapping r.caller with
  | none => rfl
  | some c =>
    dsimp only
    by_cases hg : (c != "" && dictContains comps c) = true
    · rw [if_pos hg]
      cases calleeLookup comps mapping r.callee with
      | none => rfl
      | some k =>
        rw [List.map_map]
        refine List.map_congr_left ?_
        intro p _
        by_cases hp : p.1 = c
        · simp [Function.comp, hp]
        · simp [Function.comp, hp]
    · rw [if_neg hg]

theorem processRel_lookup (comps0 comps : List (String × Node))
    (mapping : List (String × String)) (r : CallRelationship) (x : String)
    (hskel : comps.map (fun p => (p.1, p.2.name)) =
      comps0.map (fun p => (p.1, p.2.name))) :
    dictLookup (processRel comps mapping r) x =
      (match relContribution comps0 mapping x r with
       | some k => (dictLookup comps x).map
           (fun n => { n with depends_on := setAdd n.depends_on k })
       | none => dictLookup comps x) := by
  unfold processRel relContribution
  cases dictLookup mapping r.caller with
  | none => rfl
  | some c =>
    dsimp only
    have hcont : dictContains comps c = dictContains comps0 c :=
      dictContains_congr_keys c (skel_of_map_keys hskel)
    have hcal : calleeLookup comps mapping r.callee =
        calleeLookup comps0 mapping r.callee := calleeLookup_congr mapping r.callee hskel
    by_cases hg : (c != "" && dictContains comps c) = true
    · rw [if_pos hg]
      by_cases hcx : c = x
      · have hguard : (c == x && c != "" && dictContains comps0 c) = true := by
          rw [← hcont]
          simp only [Bool.and_eq_true] at hg ⊢
          exact ⟨⟨beq_iff_eq.mpr hcx, hg.1⟩, hg.2⟩
        rw [if_pos hguard, ← hcal]
        cases hcl : calleeLookup comps mapping r.callee with
        | none => rfl
        | some k =>
          dsimp only
          rw [dictLookup_map_update
            (g := fun n => { n with depends_on := setAdd n.depends_on k }) comps x,
            if_pos (show x = c from hcx.symm)]
      · have hguard : ¬ (c == x && c != "" && dictContains comps0 c) = true := by
          simp only [Bool.and_eq_true, beq_iff_eq]
          intro hh
          exact hcx hh.1.1
        rw [if_neg hguard]
        cases hcl : calleeLookup comps mapping r.callee with
        | none => rfl
        | some k =>
          dsimp only
          rw [dictLookup_map_update
            (g := fun n => { n with depends_on := setAdd n.depends_on k }) comps x,
            if_neg (show ¬ (x = c) from fun h => hcx h.symm)]
    · rw [if_neg hg]
      have hguard : ¬ (c == x && c != "" && dictContains comps0 c) = true := by
        rw [← hcont]
        intro hh
        simp only [Bool.and_eq_true] at hh
        exact hg (by simp only [Bool.and_eq_true]; exact ⟨hh.1.2, hh.2⟩)
      rw [if_neg hguard]

theorem buildComponents_fold_lookup (mapping : List (String × String))
    (comps0 : List (String × Node)) (rels : List CallRelationship) :
    ∀ (comps : List (String × Node)),
      comps.map (fun p => (p.1, p.2.name)) =
        comps0.map (fun p => (p.1, p.2.name)) →
      ∀ x, dictLookup (rels.foldl (fun cs r => processRel cs mapping r) comps) x =
        (dictLookup comps x).map (fun n =>
          { n with depends_on :=
            ((rels.filterMap (relContribution comps0 mapping x)).foldl setAdd
              n.depends_on) }) := by
  induction rels with
  | nil =>
    intro comps _ x
    simp only [List.foldl_nil, List.filterMap_nil, List.foldl_nil]
    cases dictLookup comps x <;> simp
  | cons r rest ih =>
    intro comps hskel x
    rw [List.foldl_cons]
    have hskel2 : (processRel comps mapping r).map (fun p => (p.1, p.2.name)) =
        comps0.map (fun p => (p.1, p.2.name)) :=
      (processRel_skel comps mapping r).trans hskel
    rw [ih _ hskel2 x, processRel_lookup comps0 comps mapping r x hskel,
      List.filterMap_cons]
    cases hcon : relContribution comps0 mapping x r with
    | none => rfl
    | some k =>
      dsimp only
      simp only [List.foldl_cons]
      cases dictLookup comps x <;> simp

end BuildComponentsLemmas

/-- Membership in the result of a fold of set insertions. -/
theorem mem_foldl_setAdd (l : List String) (init : List String) (x : String) :
    x ∈ l.foldl setAdd init ↔ x ∈ init ∨ x ∈ l := by
  induction l generalizing init with
  | nil => simp
  | cons a rest ih =>
    rw [List.foldl_cons, ih]
    unfold setAdd
    by_cases hc : init.contains a = true
    · rw [if_pos hc]
      have ha : a ∈ init := List.elem_iff.mp hc
      constructor
      · rintro (h | h)
        · exact Or.inl h
        · exact Or.inr (List.mem_cons_of_mem _ h)
      · rintro (h | h)
        · exact Or.inl h
        · rcases List.mem_cons.mp h with h | h
          · exact Or.inl (h ▸ ha)
          · exact Or.inr h
    · rw [if_neg hc]
      constructor
      · rintro (h | h)
        · rcases List.mem_append.mp h with h | h
          · exact Or.inl h
          · exact Or.inr (List.mem_cons.mpr (Or.inl (List.mem_singleton.mp h)))
        · exact Or.inr (List.mem_cons_of_mem _ h)
      · rintro (h | h)
        · exact Or.inl (List.mem_append.mpr (Or.inl h))
        · rcases List.mem_cons.mp h with h | h
          · exact Or.inl (List.mem_append.mpr (Or.inr (List.mem_singleton.mpr h)))
          · exact Or.inr h

/-- Every value of the built component dictionary starts with an empty
depends_on set. -/
theorem foldRegister_deps_empty (l : List Node) :
    ∀ (acc : List (String × Node) × List (String × String)),
      (∀ y m, dictLookup acc.1 y = some m → m.depends_on = []) →
      ∀ y m, dictLookup (l.foldl registerComponent acc).1 y = some m →
        m.depends_on = [] := by
  induction l with
  | nil => exact fun acc hacc => hacc
  | cons f rest ih =>
    intro acc hacc y m hm
    rw [List.foldl_cons] at hm
    refine ih (registerComponent acc f) ?_ y m hm
    intro z w hw
    unfold registerComponent at hw
    by_cases hf : (f.id == "") = true
    · rw [if_pos hf] at hw
      exact hacc z w hw
    · rw [if_neg hf] at hw
      dsimp only at hw
      rcases dictInsert_lookup_values hw with h | h
      · rw [h]
        rfl
      · exact hacc z w h

/-- Membership in a depends_on set of the built component registry,
characterized: a component's depends_on contains k exactly when the component
is registered and some relationship record contributes k through the caller
mapping and the callee lookup (with its name fallback); the is_resolved flag
of the record is irrelevant. -/
theorem depsOf_mem_iff (functions : List Node) (rels : List CallRelationship)
    (x k : String) :
    k ∈ depsOf (buildComponentsFromAnalysis functions rels) x ↔
    ((dictLookup (buildRegistry functions).1 x).isSome = true ∧
      ∃ r ∈ rels, relContribution (buildRegistry functions).1
        (buildRegistry functions).2 x r = some k) := by
  have hchar := buildComponents_fold_lookup (buildRegistry functions).2
    (buildRegistry functions).1 rels (buildRegistry functions).1 rfl x
  have hempty : ∀ n, dictLookup (buildRegistry functions).1 x = some n →
      n.depends_on = [] := by
    intro n hn
    refine foldRegister_deps_empty functions ([], []) ?_ x n hn
    intro y m hm
    simp [dictLookup] at hm
  unfold depsOf
  rw [show buildComponentsFromAnalysis functions rels =
      rels.foldl (fun cs r => processRel cs (buildRegistry functions).2 r)
        (buildRegistry functions).1 from rfl, hchar]
  cases hx : dictLookup (buildRegistry functions).1 x with
  | none =>
    constructor
    · intro h
      simp [Option.map] at h
    · rintro ⟨h, -⟩
      simp at h
  | some n =>
    have hdeps := hempty n hx
    simp only [Option.map, hdeps]
    constructor
    · intro h
      refine ⟨rfl, ?_⟩
      have h1 := (mem_foldl_setAdd _ _ _).mp h
      rcases h1 with h2 | h2
      · simp at h2
      · obtain ⟨r, hr, hcon⟩ := List.mem_filterMap.mp h2
        exact ⟨r, hr, hcon⟩
    · rintro ⟨-, r, hr, hcon⟩
      refine (mem_foldl_setAdd _ _ _).mpr (Or.inr ?_)
      exact List.mem_filterMap.mpr ⟨r, hr, hcon⟩

section RegistryReachLemmas

theorem foldRegister_mapping_self (f : Node) (h0 : f.id ≠ "") :
    ∀ (l : List Node) (acc : List (String × Node) × List (String × String)),
      (∀ g ∈ l, legacyId g ≠ f.id) →
      (dictLookup acc.2 f.id = some f.id ∨
        (dictLookup acc.2 f.id = none ∧ f ∈ l)) →
      dictLookup (l.foldl registerComponent acc).2 f.id = some f.id := by
  intro l
  induction l with
  | nil =>
    intro acc _ hacc
    rcases hacc with h | ⟨-, hmem⟩
    · exact h
    · simp at hmem
  | cons g rest ih =>
    intro acc hleg hacc
    rw [List.foldl_cons]
    have hlegg : legacyId g ≠ f.id := hleg g (List.mem_cons_self _ _)
    refine ih (registerComponent acc g)
      (fun g2 h2 => hleg g2 (List.mem_cons_of_mem _ h2)) ?_
    unfold registerComponent
    by_cases hgid : (g.id == "") = true
    · rw [if_pos hgid]
      rcases hacc with h | ⟨hn, hmem⟩
      · exact Or.inl h
      · refine Or.inr ⟨hn, ?_⟩
        rcases List.mem_cons.mp hmem with he | he
        · exfalso
          apply h0
          rw [he]
          exact beq_iff_eq.mp hgid
        · exact he
    · rw [if_neg hgid]
      dsimp only
      have hm2 : ∀ (m1 : List (String × String)),
          dictLookup
            (if (legacyId g != "" && legacyId g != g.id) = true then
              dictInsert m1 (legacyId g) g.id
            else m1) f.id = dictLookup m1 f.id := by
        intro m1
        by_cases hcond : (legacyId g != "" && legacyId g != g.id) = true
        · rw [if_pos hcond, dictLookup_insert,
            if_neg (show ¬ (f.id = legacyId g) from fun hh => hlegg hh.symm)]
        · rw [if_neg hcond]
      rw [hm2, dictLookup_insert]
      by_cases hgf : f.id = g.id
      · rw [if_pos hgf]
        exact Or.inl (by rw [hgf])
      · rw [if_neg hgf]
        rcases hacc with h | ⟨hn, hmem⟩
        · exact Or.inl h
        · refine Or.inr ⟨hn, ?_⟩
          rcases List.mem_cons.mp hmem with he | he
          · exact absurd (by rw [he]) hgf
          · exact he

theorem foldRegister_contains (f : Node) (h0 : f.id ≠ "") :
    ∀ (l : List Node) (acc : List (String × Node) × List (String × String)),
      (dictContains acc.1 f.id = true ∨ f ∈ l) →
      dictContains (l.foldl registerComponent acc).1 f.id = true := by
  intro l
  induction l with
  | nil =>
    intro acc hacc
    rcases hacc with h | hmem
    · exact h
    · simp at hmem
  | cons g rest ih =>
    intro acc hacc
    rw [List.foldl_cons]
    refine ih (registerComponent acc g) ?_
    unfold registerComponent
    by_cases hgid : (g.id == "") = true
    · rw [if_pos hgid]
      rcases hacc with h | hmem
      · exact Or.inl h
      · rcases List.mem_cons.mp hmem with he | he
        · exfalso
          apply h0
          rw [he]
          exact beq_iff_eq.mp hgid
        · exact Or.inr he
    · rw [if_neg hgid]
      dsimp only
      rcases hacc with h | hmem
      · refine Or.inl ?_
        rw [dictContains_insert, h, Bool.or_true]
      · rcases List.mem_cons.mp hmem with he | he
        · refine Or.inl ?_
          rw [dictContains_insert]
          simp [he]
        · exact Or.inr he

end RegistryReachLemmas

/-- C2 (amended): a caller component's depends_on gains a callee component id
exactly when the component is registered and some relationship record's
caller maps to it through the id mapping while its callee resolves through
the id mapping or the component-name fallback; the is_resolved flag of the
record is never consulted, so a relationship left unresolved can still
populate depends_on when its raw callee text matches a component's name or
legacy "file_path:name" id. -/
theorem c2_depends_on_characterization (functions : List Node)
    (rels : List CallRelationship) (x k : String) :
    k ∈ depsOf (buildComponentsFromAnalysis functions rels) x ↔
    ((dictLookup (buildRegistry functions).1 x).isSome = true ∧
      ∃ r ∈ rels, relContribution (buildRegistry functions).1
        (buildRegistry functions).2 x r = some k) :=
  depsOf_mem_iff functions rels x k

/-- The repository of C2's counterexample: one file defining m.c and m.t
(with file_path "fp", so legacy id "fp:t") and a raw call edge from m.c to
the text "fp:t", which no lookup key resolves. -/
def legacyCalleeFiles : List (Except String FileAnalysis) :=
  [Except.ok ⟨"a.py",
    [plainNode "m.c" "c" "/r/a.py" "function",
     plainNode "m.t" "t" "fp" "function"],
    [⟨"m.c", "fp:t", 3, false⟩]⟩]

/-- C2 (counterexample): after the full pipeline, the edge from m.c stays
unresolved (is_resolved = false, callee still the raw text "fp:t"), yet the
depends_on set of m.c gains m.t through the legacy-id mapping — an unresolved
relationship does populate depends_on, contrary to the claim. -/
theorem c2_counterexample :
    (analyzeCodeFiles legacyCalleeFiles).2 = [⟨"m.c", "fp:t", 3, false⟩] ∧
    "m.t" ∈ depsOf (parseRepository legacyCalleeFiles) "m.c" := by
  constructor
  · rfl
  · decide

/-- C2 (witness): the characterization instantiated at the counterexample's
registry: m.t enters depends_on of m.c through the contribution of the
unresolved relationship. -/
theorem c2_witness :
    "m.t" ∈ depsOf
      (buildComponentsFromAnalysis
        [plainNode "m.c" "c" "/r/a.py" "function",
         plainNode "m.t" "t" "fp" "function"]
        [⟨"m.c", "fp:t", 3, false⟩]) "m.c" :=
  (c2_depends_on_characterization
    [plainNode "m.c" "c" "/r/a.py" "function",
     plainNode "m.t" "t" "fp" "function"]
    [⟨"m.c", "fp:t", 3, false⟩] "m.c" "m.t").mpr
    ⟨by decide, ⟨"m.c", "fp:t", 3, false⟩, by decide, by decide⟩

/-- C3 (amended): the build step adds resolved callee ids to depends_on with
no self-loop filter, so a declaration whose relationship has caller = callee
= its own id (a recursive call after resolution) gets its own id in its
depends_on set.  The hypotheses state that the node is registered under its
non-empty id and that no legacy "file_path:name" id shadows it. -/
theorem c3_recursive_self_dependency (functions : List Node)
    (rels : List CallRelationship) (f : Node) (r : CallRelationship)
    (hf : f ∈ functions) (h0 : f.id ≠ "")
    (hleg : ∀ g ∈ functions, legacyId g ≠ f.id)
    (hr : r ∈ rels) (hcaller : r.caller = f.id) (hcallee : r.callee = f.id) :
    f.id ∈ depsOf (buildComponentsFromAnalysis functions rels) f.id := by
  have hmap : dictLookup (buildRegistry functions).2 f.id = some f.id :=
    foldRegister_mapping_self f h0 functions ([], []) hleg (Or.inr ⟨rfl, hf⟩)
  have hcont : dictContains (buildRegistry functions).1 f.id = true :=
    foldRegister_contains f h0 functions ([], []) (Or.inr hf)
  refine (depsOf_mem_iff functions rels f.id f.id).mpr
    ⟨(dictContains_iff_lookup _ _).mp hcont, r, hr, ?_⟩
  unfold relContribution
  rw [hcaller, hmap]
  dsimp only
  have hguard : (f.id == f.id && f.id != "" &&
      dictContains (buildRegistry functions).1 f.id) = true := by
    simp [h0, hcont]
  rw [if_pos hguard]
  unfold calleeLookup
  rw [hcallee, hmap]
  dsimp only
  rw [if_neg (show ¬ ((f.id == "") = true) by simp [h0])]

/-- The repository of C3's counterexample: one file whose function m.f calls
its own bare name f. -/
def selfCallFiles : List (Except String FileAnalysis) :=
  [Except.ok ⟨"a.py", [plainNode "m.f" "f" "/r/a.py" "function"],
    [⟨"m.f", "f", 2, false⟩]⟩]

/-- C3 (counterexample): parse_repository on a repository with one recursive
function puts the node's own id into its depends_on set, contrary to the
claimed invariant. -/
theorem c3_counterexample :
    "m.f" ∈ depsOf (parseRepository selfCallFiles) "m.f" := by
  decide

/-- C3 (witness): the amended theorem applied to the concrete recursive
repository. -/
theorem c3_witness :
    ("m.f" : String) ∈ depsOf
      (buildComponentsFromAnalysis [plainNode "m.f" "f" "/r/a.py" "function"]
        [⟨"m.f", "m.f", 2, true⟩]) "m.f" :=
  c3_recursive_self_dependency
    [plainNode "m.f" "f" "/r/a.py" "function"] [⟨"m.f", "m.f", 2, true⟩]
    (plainNode "m.f" "f" "/r/a.py" "function") ⟨"m.f", "m.f", 2, true⟩
    (by decide) (by decide) (by decide) (by decide) rfl rfl

/-- The repository of C1's witness: one file whose analyzer emitted an edge
already marked resolved, carrying the exact id of a same-file node. -/
def preMarkedFiles : List (Except String FileAnalysis) :=
  [Except.ok ⟨"a.js", [plainNode "m.f" "f" "/r/a.js" "function"],
    [⟨"m.g", "m.f", 1, true⟩]⟩]

/-- C1 (witness): the amended theorem applied to a run with a pre-marked
resolved edge whose callee is a same-file node id: the first alternative
holds, the callee is a registry key. -/
theorem c1_witness :
    dictContains (analyzeCodeFiles preMarkedFiles).1 "m.f" = true ∨
    ((⟨"m.g", "m.f", 1, true⟩ : CallRelationship) ∈ (mergeFiles preMarkedFiles).2 ∧
      dictLookup (buildFuncLookup (mergeFiles preMarkedFiles).1) "m.f" = none ∧
      (strContains "m.f" "." = false ∨
        dictLookup (buildFuncLookup (mergeFiles preMarkedFiles).1)
          (lastSuffix "m.f") = none)) :=
  c1_resolved_callee_amended preMarkedFiles ⟨"m.g", "m.f", 1, true⟩
    (by decide) (by decide)

/-- C4 (witness): two files defining helper, a third calling it; the edge
resolves to the last-registered b.helper. -/
theorem c4_witness :
    (analyzeCodeFiles
        [Except.ok ⟨"a.py", [plainNode "a.helper" "helper" "/r/a.py" "function"], []⟩,
         Except.ok ⟨"b.py", [plainNode "b.helper" "helper" "/r/b.py" "function"], []⟩,
         Except.ok ⟨"c.py", [plainNode "c.main" "main" "/r/c.py" "function"],
           [⟨"c.main", "helper", 2, false⟩]⟩]).2 =
      [⟨"c.main", "b.helper", 2, true⟩] ∧
    dictContains
      (analyzeCodeFiles
        [Except.ok ⟨"a.py", [plainNode "a.helper" "helper" "/r/a.py" "function"], []⟩,
         Except.ok ⟨"b.py", [plainNode "b.helper" "helper" "/r/b.py" "function"], []⟩,
         Except.ok ⟨"c.py", [plainNode "c.main" "main" "/r/c.py" "function"],
           [⟨"c.main", "helper", 2, false⟩]⟩]).1 "b.helper" = true :=
  c4_last_registered_wins
    (plainNode "a.helper" "helper" "/r/a.py" "function")
    (plainNode "b.helper" "helper" "/r/b.py" "function")
    (plainNode "c.main" "main" "/r/c.py" "function")
    "a.py" "b.py" "c.py" "c.main" "helper" 2
    (by decide) (by decide) (by decide) (by decide) (by decide) (by decide)
    (by decide) (by decide) (by decide) (by decide) (by decide)

/-- The repository of C5's witness: two raw edges with the same
(caller, callee) pair on different lines. -/
def dupEdgeFiles : List (Except String FileAnalysis) :=
  [Except.ok ⟨"a.py", [plainNode "m.f" "f" "/r/a.py" "function"],
    [⟨"m.g", "f", 1, false⟩, ⟨"m.g", "f", 9, false⟩]⟩]

/-- C5 (witness): the surviving edge of the duplicate pair is the first
occurrence of that pair in the resolved list, so its call line is 1. -/
theorem c5_witness :
    (resolveCallRelationships (mergeFiles dupEdgeFiles).1
        (mergeFiles dupEdgeFiles).2).find?
      (fun x => x.caller == "m.g" && x.callee == "m.f") =
      some ⟨"m.g", "m.f", 1, true⟩ :=
  (c5_dedup_keeps_first_occurrence dupEdgeFiles).2.1
    ⟨"m.g", "m.f", 1, true⟩ (by decide)

/-- A registry holding one class and one function. -/
def classComps : List (String × Node) :=
  [("m.C", plainNode "m.C" "C" "x" "class"),
   ("m.f", plainNode "m.f" "f" "x" "function")]

/-- A registry holding only a function. -/
def funcComps : List (String × Node) :=
  [("m.f", plainNode "m.f" "f" "x" "function")]

/-- C7 (witness): with a class present the kept leaf m.C is class-typed, and
with only functions present the function leaf m.f is kept. -/
theorem c7_witness :
    (∃ n, dictLookup classComps "m.C" = some n ∧
      (n.component_type = "class" ∨ n.component_type = "interface" ∨
        n.component_type = "struct")) ∧
    "m.f" ∈ keepLeafNodes funcComps ["m.f"] :=
  ⟨(c7_leaf_type_selection classComps ["m.C", "m.f"]).1 (by decide) "m.C" (by decide),
   (c7_leaf_type_selection funcComps ["m.f"]).2 (by decide) "m.f" (by decide)
     (by decide) (plainNode "m.f" "f" "x" "function") (by decide) rfl⟩

/-- C8 (witness): the candidate m.Error is dropped from the leaf list. -/
theorem c8_witness : "m.Error" ∉ keepLeafNodes classComps ["m.Error"] :=
  c8_contaminated_leaf_dropped classComps ["m.Error"] "m.Error" (by decide)

/-- A two-file repository rooted at a plain directory. -/
def sampleFS : FSEntry :=
  FSEntry.dir "root" false false
    [FSEntry.file "x.md" 3 false false, FSEntry.file "y.py" 4 false false]

/-- The FileTree the walk produces on sampleFS when y.py is excluded. -/
def sampleTree : FileTreeNode :=
  FileTreeNode.dir "root" "." [FileTreeNode.file "x.md" "x.md" ".md" 3]

/-- C9 (witness): the exclusion theorem applied to the concrete walk that
drops y.py: the surviving file x.md passes the exclusion check. -/
theorem c9_witness :
    shouldExcludePath ["y.py"] (fun s pat => s == pat) "x.md" "x.md" = false :=
  c9_exclude_dominates_include ["y.py"] [] (fun s pat => s == pat) 2 sampleFS
    sampleTree rfl 2 ("x.md", "x.md") (by decide)

/-- A concrete analyzer state with one function and one raw edge. -/
def sampleState : AnalyzerState :=
  ⟨[("m.f", plainNode "m.f" "f" "/r/a.py" "function")],
   [⟨"m.g", "f", 1, false⟩]⟩

/-- C10 (witness): deduplication only keeps existing relationships: the edge
of the concrete state survives into the deduplicated list unchanged. -/
theorem c10_witness :
    (⟨"m.g", "f", 1, false⟩ : CallRelationship) ∈ sampleState.call_relationships :=
  (c10_resolution_frame sampleState).2.2.2 ⟨"m.g", "f", 1, false⟩ (by decide)

end CodeWiki
